import Mathlib

/-!
Verification of the UltiSnips text-object core
(src/plugin/UltiSnips/TextObjects/_base.py).

The region tree (`TextObject`, `EditableTextObject`, `NoneditableTextObject`)
is embedded as the inductive type `TextObject`; mutation is modelled by
explicit state passing.  Upward boundary propagation (`_child_has_moved`,
`child_end_moved3`) is modelled on a zipper: a list of `Frame`s describing
the ancestors of the focused object.

The `Position` primitives come from `UltiSnips.Geometry`, which is not under
src/; they are modelled from the spec (section 3 and 4.1), as is the Host
Document Adapter (`TextBuffer.to_vim`), which is represented by the end
position it returns.
-/

namespace UltiSnips

/-- Modelled from the spec: `UltiSnips.Geometry.Position` (the Geometry
module is not under src/).  A document position, `(line, column)`,
compared line first, then column.  Components are integers because the
code also builds `Position` deltas with negative components. -/
structure Position where
  line : Int
  col : Int
deriving Repr, DecidableEq

/-- Lexicographic strict order on positions (spec section 3: compare line
first, then column). -/
def Position.ltP (p q : Position) : Prop :=
  p.line < q.line ∨ (p.line = q.line ∧ p.col < q.col)

instance : LT Position := ⟨Position.ltP⟩

instance (p q : Position) : Decidable (p < q) :=
  inferInstanceAs (Decidable (p.line < q.line ∨ (p.line = q.line ∧ p.col < q.col)))

/-- Lexicographic order on positions. -/
def Position.leP (p q : Position) : Prop := p < q ∨ p = q

instance : LE Position := ⟨Position.leP⟩

instance (p q : Position) : Decidable (p ≤ q) :=
  inferInstanceAs (Decidable (p < q ∨ p = q))

/-- Modelled from the spec: `Position.__add__` (componentwise, used as
`pos + Position(0, len(char))`). -/
def Position.add (p q : Position) : Position := ⟨p.line + q.line, p.col + q.col⟩

/-- Modelled from the spec: `Position.__sub__` (used as `(start - pos).col`
in the split cases of `_do_edit`). -/
def Position.sub (p q : Position) : Position := ⟨p.line - q.line, p.col - q.col⟩

/-- Modelled from the spec: `Position.diff` — "subtract (returns a delta as
a signed (line, column) pair)". -/
def Position.diff (p q : Position) : Position := ⟨p.line - q.line, p.col - q.col⟩

/-- Python's `min(a, b)`: returns `b` only when `b < a`. -/
def Position.minP (a b : Position) : Position := if b < a then b else a

/-- Modelled from the spec (section 4.1): `Position.move(pivot, delta)`.
A position strictly before `pivot` is unaffected; a position at or after
`pivot` is shifted by `delta`, where a line-delta shifts the line number
and the column delta additionally applies on the pivot's own line. -/
def Position.move (p pivot d : Position) : Position :=
  if p < pivot then p
  else if d.line = 0 then
    if p.line = pivot.line then ⟨p.line, p.col + d.col⟩ else p
  else
    ⟨p.line + d.line, if p.line = pivot.line then p.col + d.col else p.col⟩

/-- The region tree.  `ed` embeds `EditableTextObject` (with its ordered
`_childs` list and its `_tabstops` mapping, modelled by its list of keys);
`ne` embeds `NoneditableTextObject` (no children).  Both carry the
`_start`/`_end` span, the optional tabstop number `no` of the object
itself (the `no` attribute set by tabstop subclasses; absent on plain
objects, where Python raises `AttributeError` on access), and the
`_is_killed` flag. -/
inductive TextObject where
  | ed (start stop : Position) (no : Option Int) (killed : Bool)
      (tabstops : List Int) (childs : List TextObject)
  | ne (start stop : Position) (no : Option Int) (killed : Bool)
deriving Repr

/-- `self._start`. -/
def TextObject.start : TextObject → Position
  | .ed s _ _ _ _ _ => s
  | .ne s _ _ _ => s

/-- `self._end` (`end` is a keyword in Lean, so the field is `stop`). -/
def TextObject.stop : TextObject → Position
  | .ed _ e _ _ _ _ => e
  | .ne _ e _ _ => e

/-- The optional `no` attribute (tabstop number). -/
def TextObject.no : TextObject → Option Int
  | .ed _ _ n _ _ _ => n
  | .ne _ _ n _ => n

/-- The `_is_killed` flag. -/
def TextObject.killed : TextObject → Bool
  | .ed _ _ _ k _ _ => k
  | .ne _ _ _ k => k

/-- `isinstance(c, EditableTextObject)`. -/
def TextObject.isEditable : TextObject → Bool
  | .ed _ _ _ _ _ _ => true
  | .ne _ _ _ _ => false

/-- The `_childs` list (empty for noneditable objects, which own none). -/
def TextObject.childs : TextObject → List TextObject
  | .ed _ _ _ _ _ cs => cs
  | .ne _ _ _ _ => []

/-- The `_tabstops` key set (empty for noneditable objects). -/
def TextObject.tabstops : TextObject → List Int
  | .ed _ _ _ _ ts _ => ts
  | .ne _ _ _ _ => []

/-- Assignment to `self._end` (used by `overwrite`). -/
def TextObject.setStop (p : Position) : TextObject → TextObject
  | .ed s _ n k ts cs => .ed s p n k ts cs
  | .ne s _ n k => .ne s p n k

/-- Assignment `c._is_killed = True` (used by `_del_child`). -/
def TextObject.setKilled (b : Bool) : TextObject → TextObject
  | .ed s e n _ ts cs => .ed s e n b ts cs
  | .ne s e n _ => .ne s e n b

mutual
/-- `TextObject._move` / `EditableTextObject._move`: move `_start` and
`_end` by `Position.move(pivot, diff)`, and recursively move every
child (editable objects only; noneditable objects have no children). -/
def TextObject.move (pivot d : Position) : TextObject → TextObject
  | .ed s e n k ts cs =>
      .ed (s.move pivot d) (e.move pivot d) n k ts (moveList pivot d cs)
  | .ne s e n k => .ne (s.move pivot d) (e.move pivot d) n k

/-- `_move` mapped over a child list. -/
def moveList (pivot d : Position) : List TextObject → List TextObject
  | [] => []
  | c :: cs => TextObject.move pivot d c :: moveList pivot d cs
end

mutual
/-- All span boundaries (start and end positions) of a subtree, own
boundaries first, then the children's in order. -/
def TextObject.boundaries : TextObject → List Position
  | .ed s e _ _ _ cs => s :: e :: boundariesList cs
  | .ne s e _ _ => [s, e]

/-- Boundaries of a list of subtrees. -/
def boundariesList : List TextObject → List Position
  | [] => []
  | c :: cs => TextObject.boundaries c ++ boundariesList cs
end

/-- One ancestor level of the zipper that locates an object in the region
tree: the ancestor's own fields (it is editable, since only
`EditableTextObject` owns children), the siblings before the focused
object (`before`) and the siblings after it (`after`).  By construction
`before.length` is the focused object's index `self._parent._childs.index(self)`. -/
structure Frame where
  start : Position
  stop : Position
  no : Option Int
  killed : Bool
  tabstops : List Int
  before : List TextObject
  after : List TextObject
deriving Repr

/-- The ancestor chain of a focused object, innermost parent first.  An
empty path means the object is the root (`self._parent is None`). -/
abbrev Path := List Frame

/-- Rebuilding the parent object from a frame and the focused child. -/
def Frame.rebuild (f : Frame) (t : TextObject) : TextObject :=
  .ed f.start f.stop f.no f.killed f.tabstops (f.before ++ t :: f.after)

/-- `TextObject._child_has_moved(idx, pivot, diff)` as seen from the moved
child: at every ancestor level the ancestor's `_end` is moved and every
later sibling (`self._childs[idx+1:]`) is moved as a subtree, then the
walk recurses into the next parent with that parent's own index.  (The
`except AttributeError` in the source is dead in this model: every parent
owns a `_childs` list.) -/
def childHasMovedUp (pivot d : Position) : Path → Path
  | [] => []
  | f :: fs =>
      { f with stop := f.stop.move pivot d,
               after := moveList pivot d f.after } :: childHasMovedUp pivot d fs

/-- `TextObject.child_end_moved3(pivot, diff)`: if the object has no
parent, do nothing; otherwise move the parent's `_end`, move every later
sibling (`self._parent._childs[index(self)+1:]`) as a subtree, and recurse
on the parent. -/
def childEndMoved3 (pivot d : Position) : Path → Path
  | [] => []
  | f :: fs =>
      { f with stop := f.stop.move pivot d,
               after := moveList pivot d f.after } :: childEndMoved3 pivot d fs

/-- `TextObject.overwrite`.  Modelled from the spec: the Host Document
Adapter (`TextBuffer(...).to_vim(self._start, self._end)`, not under src/)
"returns the position where the written text ends"; it is represented by
that returned position `newEnd`.  The object's `_end` becomes `newEnd`;
its children are deliberately not moved; if the object has a parent, the
parent is notified through `_child_has_moved(index_of_self,
min(old_end, new_end), new_end.diff(old_end))`. -/
def overwrite (path : Path) (t : TextObject) (newEnd : Position) : Path × TextObject :=
  let oldEnd := t.stop
  let t2 := t.setStop newEnd
  match path with
  | [] => ([], t2)
  | f :: fs =>
      (childHasMovedUp (Position.minP oldEnd newEnd) (newEnd.diff oldEnd) (f :: fs), t2)

/-- Python `min` over a candidate list (`min(possible_sol)`, compared by
tabstop number), `none` for the empty list. -/
def minI : List Int → Option Int
  | [] => none
  | x :: xs =>
      match minI xs with
      | none => some x
      | some m => some (min x m)

/-- Python `max` over a candidate list (`max(possible_sol)`), `none` for
the empty list. -/
def maxI : List Int → Option Int
  | [] => none
  | x :: xs =>
      match maxI xs with
      | none => some x
      | some m => some (max x m)

/-- The upward scan of `_get_next_tab`: `i = no + 1; while i <= tno_max:
if i in tabstops: take it; i += 1`.  The while loop is bounded by `tmax`,
so running it on enough steps reproduces it exactly. -/
def scanUp (ts : List Int) (tmax : Int) : Nat → Int → Option Int
  | 0, _ => none
  | steps + 1, i =>
      if i ≤ tmax then
        if i ∈ ts then some i else scanUp ts tmax steps (i + 1)
      else none

/-- The downward scan of `_get_prev_tab`: `i = no - 1; while i >= tno_min
and i > 0: if i in tabstops: take it; i -= 1`. -/
def scanDown (ts : List Int) (tmin : Int) : Nat → Int → Option Int
  | 0, _ => none
  | steps + 1, i =>
      if tmin ≤ i ∧ 0 < i then
        if i ∈ ts then some i else scanDown ts tmin steps (i - 1)
      else none

/-- Wrap an optional direct hit as a candidate list. -/
def optList : Option Int → List Int
  | none => []
  | some i => [i]

mutual
/-- `EditableTextObject._get_next_tab(no)`: if the object has no direct
tabstops, return `None` at once (children are not consulted); otherwise
scan the integers above `no` up to the largest direct key, collect the
recursive results of the editable children, and return the minimum
candidate by tabstop number (`None` when there is none).  On a
noneditable object the method is never invoked; the model returns `none`. -/
def getNextTab : TextObject → Int → Option Int
  | .ne _ _ _ _, _ => none
  | .ed _ _ _ _ ts cs, no =>
      if ts = [] then none
      else
        let tmax := (maxI ts).getD 0
        let direct := scanUp ts tmax ((tmax - no).toNat + 1) (no + 1)
        minI (optList direct ++ getNextTabKids cs no)

/-- The list `[c._get_next_tab(no) for c in self._editable_childs]` with
`None` results filtered out (`filter(lambda i: i, c)`). -/
def getNextTabKids : List TextObject → Int → List Int
  | [], _ => []
  | c :: cs, no =>
      match c with
      | .ed s e n k ts2 cs2 =>
          optList (getNextTab (.ed s e n k ts2 cs2) no) ++ getNextTabKids cs no
      | .ne _ _ _ _ => getNextTabKids cs no
end

mutual
/-- `EditableTextObject._get_prev_tab(no)`: like `_get_next_tab` but
scanning downward (also requiring `i > 0`), taking the maximum candidate,
and recursing over all of `self._childs` — including noneditable
children, which have no `_get_prev_tab` method, so Python raises
`AttributeError` there; the model returns that error. -/
def getPrevTab : TextObject → Int → Except String (Option Int)
  | .ne _ _ _ _, _ => .error "AttributeError"
  | .ed _ _ _ _ ts cs, no =>
      if ts = [] then .ok none
      else
        let tmin := (minI ts).getD 0
        let direct := scanDown ts tmin ((no - tmin).toNat + 1) (no - 1)
        match getPrevTabKids cs no with
        | .error msg => .error msg
        | .ok kids => .ok (maxI (optList direct ++ kids))

/-- The list `[c._get_prev_tab(no) for c in self._childs]`, evaluated left
to right; an `AttributeError` from any child aborts the whole lookup. -/
def getPrevTabKids : List TextObject → Int → Except String (List Int)
  | [], _ => .ok []
  | c :: cs, no =>
      match getPrevTab c no with
      | .error msg => .error msg
      | .ok r =>
          match getPrevTabKids cs no with
          | .error msg => .error msg
          | .ok rest => .ok (optList r ++ rest)
end

mutual
/-- The lookup claimed for `next_tab` (claim wording, for comparison):
the lowest-numbered registered tabstop strictly greater than `no`, taking
the minimum by tabstop number over this object's direct tabstops and the
recursive results from its editable children, with no early return. -/
def nextTabSpec : TextObject → Int → Option Int
  | .ne _ _ _ _, _ => none
  | .ed _ _ _ _ ts cs, no =>
      minI (ts.filter (fun i => no < i) ++ nextTabSpecKids cs no)

/-- Recursive candidates of `nextTabSpec` over the editable children. -/
def nextTabSpecKids : List TextObject → Int → List Int
  | [], _ => []
  | c :: cs, no =>
      match c with
      | .ed s e n k ts2 cs2 =>
          optList (nextTabSpec (.ed s e n k ts2 cs2) no) ++ nextTabSpecKids cs no
      | .ne _ _ _ _ => nextTabSpecKids cs no
end

mutual
/-- The amended description of `_get_next_tab`: as `nextTabSpec`, except
that an object with no direct tabstops returns `none` immediately,
without consulting its children. -/
def nextTabAmended : TextObject → Int → Option Int
  | .ne _ _ _ _, _ => none
  | .ed _ _ _ _ ts cs, no =>
      if ts = [] then none
      else minI (ts.filter (fun i => no < i) ++ nextTabAmendedKids cs no)

/-- Recursive candidates of `nextTabAmended` over the editable children. -/
def nextTabAmendedKids : List TextObject → Int → List Int
  | [], _ => []
  | c :: cs, no =>
      match c with
      | .ed s e n k ts2 cs2 =>
          optList (nextTabAmended (.ed s e n k ts2 cs2) no) ++ nextTabAmendedKids cs no
      | .ne _ _ _ _ => nextTabAmendedKids cs no
end

/-- `EditableTextObject._del_child(c)`, with the child designated by its
index in `_childs` (Python removes `c` by object identity, which is its
index).  The flag `_is_killed` is set, the child is removed from
`_childs`, and then `del self._tabstops[c.no]` runs inside a
`try/except AttributeError`: a child without a `no` attribute is
tolerated, but a `no` that is not a registered key raises `KeyError`,
which is not caught — the error value carries the parent state at the
raise (child already killed and removed). -/
def delChild (t : TextObject) (i : Nat) : Except TextObject (TextObject × TextObject) :=
  match t with
  | .ne s e n k => .error (.ne s e n k)
  | .ed s e n k ts cs =>
      match cs[i]? with
      | none => .error (.ed s e n k ts cs)
      | some c =>
          let ck := c.setKilled true
          let cs2 := cs.take i ++ cs.drop (i + 1)
          match c.no with
          | none => .ok (.ed s e n k ts cs2, ck)
          | some num =>
              if num ∈ ts then .ok (.ed s e n k (ts.erase num) cs2, ck)
              else .error (.ed s e n k ts cs2)

/-- The edit command kinds `"D"` (delete) and `"I"` (insert). -/
inductive CType where
  | D
  | I
deriving Repr, DecidableEq

/-- An edit command `(ctype, line, col, char)` handed to `_do_edit`.  The
payload is modelled as a character list. -/
structure Cmd where
  ctype : CType
  line : Int
  col : Int
  char : List Char
deriving Repr, DecidableEq

/-- Python slice `s[:k]` (a negative `k` counts from the end). -/
def pyTake (s : List Char) (k : Int) : List Char :=
  if k < 0 then s.take ((s.length + k).toNat) else s.take k.toNat

/-- Python slice `s[k:]` (a negative `k` counts from the end). -/
def pyDrop (s : List Char) (k : Int) : List Char :=
  if k < 0 then s.drop ((s.length + k).toNat) else s.drop k.toNat

/-- Outcome of the child scan loop in `_do_edit`: either the command is
dispatched into the child at a given index (`into`), or the loop `break`s
with two split commands (`split`), or it runs to the end (`done`).  For
`split` and `done` the kill marks of the scanned children are returned
(children past a `break` carry no mark; `applyKills` treats a missing
mark as false). -/
inductive ScanOut where
  | into (i : Nat)
  | split (marks : List Bool) (cA cB : Cmd)
  | done (marks : List Bool)
deriving Repr

/-- Prepend the current child's kill mark to a scan outcome. -/
def ScanOut.consMark (m : Bool) : ScanOut → ScanOut
  | .into i => .into i
  | .split marks a b => .split (m :: marks) a b
  | .done marks => .done (m :: marks)

/-- The `for c in self._childs` loop of `_do_edit`, checking the cases in
source order.  For a delete: first "the edit is completely for the child"
(noneditable children are marked killed instead or recursed into),
then "the deletion removes the child" (mark killed, continue), then the
two split cases (two new commands, `break`).  For an insert: noneditable
children are skipped, and the first editable child whose closed span
contains the anchor receives the command. -/
def scanGo (cmd : Cmd) (pos delend : Position) : Nat → List TextObject → ScanOut
  | _, [] => .done []
  | i, c :: cs =>
      let s := c.start
      let e := c.stop
      match cmd.ctype with
      | .D =>
          if s ≤ pos ∧ pos < e ∧ s < delend ∧ delend ≤ e then
            if c.isEditable then .into i
            else ScanOut.consMark true (scanGo cmd pos delend (i + 1) cs)
          else if (pos < s ∧ e ≤ delend) ∨ (pos ≤ s ∧ e < delend) then
            ScanOut.consMark true (scanGo cmd pos delend (i + 1) cs)
          else if pos < s ∧ s < delend ∧ delend ≤ e then
            let k := (s.sub pos).col
            .split [false]
              ⟨.D, cmd.line, cmd.col, pyTake cmd.char k⟩
              ⟨.D, cmd.line, cmd.col, pyDrop cmd.char k⟩
          else if delend ≥ e ∧ s ≤ pos ∧ pos < e then
            let k := (e.sub pos).col
            .split [false]
              ⟨.D, cmd.line, cmd.col, pyDrop cmd.char k⟩
              ⟨.D, cmd.line, cmd.col, pyTake cmd.char k⟩
          else
            ScanOut.consMark false (scanGo cmd pos delend (i + 1) cs)
      | .I =>
          if c.isEditable then
            if s ≤ pos ∧ pos ≤ e then .into i
            else ScanOut.consMark false (scanGo cmd pos delend (i + 1) cs)
          else ScanOut.consMark false (scanGo cmd pos delend (i + 1) cs)

/-- `for c in to_kill: self._del_child(c)`: remove every marked child and
unregister its tabstop number.  (`to_kill` is a Python set with
unspecified iteration order; the model iterates in child order, which
yields the same final state whenever no error occurs.)  A marked child
whose `no` is not a registered key raises `KeyError` (not caught): the
error result keeps the state at the raise — that child removed, the rest
of the list untouched. -/
def applyKills (ts : List Int) : List TextObject → List Bool →
    Option String × List Int × List TextObject
  | [], _ => (none, ts, [])
  | c :: cs, marks =>
      let m := marks.headD false
      let rest := marks.tail
      if m then
        match c.no with
        | none => applyKills ts cs rest
        | some num =>
            if num ∈ ts then applyKills (ts.erase num) cs rest
            else (some "KeyError", ts, cs)
      else
        match applyKills ts cs rest with
        | (er, ts2, cs2) => (er, ts2, c :: cs2)

/-- A pending upward shift: the `(pivot, delta)` of a
`_child_has_moved(-1, pivot, delta)` call whose walk continues above the
object on which `_do_edit` was invoked.  Applying the events in order to
an ancestor frame reproduces the source's immediate upward recursion,
because the upward walk only rewrites ancestor `_end`s and later-sibling
subtrees and never influences the dispatch decisions below. -/
abbrev Ev := Position × Position

/-- Result of `_do_edit` on a subtree: the new subtree plus the upward
shift events, in order; `err` is a raised exception (assertion or
`KeyError`) carrying the state at the raise; `nofuel` means the step
budget ran out (never the case in the runs proved below). -/
inductive ERes where
  | ok (t : TextObject) (evs : List Ev)
  | err (msg : String) (t : TextObject) (evs : List Ev)
  | nofuel
deriving Repr

/-- Apply pending upward shifts to an ancestor's `_end`. -/
def applyEvsPos (p : Position) (evs : List Ev) : Position :=
  evs.foldl (fun q ev => q.move ev.1 ev.2) p

/-- Apply pending upward shifts to an ancestor's later-sibling subtrees. -/
def applyEvsList (l : List TextObject) (evs : List Ev) : List TextObject :=
  evs.foldl (fun m ev => moveList ev.1 ev.2 m) l

/-- `EditableTextObject._do_edit(cmd)`.  The top assertion rejects mixed
newline payloads; then the children are scanned (`scanGo`); an `into`
outcome recurses into the child (the parent's `_end` and later siblings
then absorb the child's upward shift events); otherwise the marked
children are removed, split commands are re-dispatched on the object
itself, and if nothing consumed the edit the object absorbs it: for a
delete it asserts `self._start != self._end`, computes the signed delta
(one whole line for a bare newline), and runs
`self._child_has_moved(-1, pivot, delta)`, which moves its own `_end` and
every child subtree and emits the shift upward. -/
def doEditF : Nat → TextObject → Cmd → ERes
  | 0, _, _ => .nofuel
  | _ + 1, .ne s e n k, _ => .err "AttributeError" (.ne s e n k) []
  | fuel + 1, .ed s e n k ts cs, cmd =>
      if ¬ (('\n' ∉ cmd.char) ∨ cmd.char = ['\n']) then
        .err "assert mixed newline" (.ed s e n k ts cs) []
      else
        let pos : Position := ⟨cmd.line, cmd.col⟩
        let delend : Position :=
          if cmd.char = ['\n'] then ⟨cmd.line + 1, 0⟩
          else ⟨cmd.line, cmd.col + cmd.char.length⟩
        match scanGo cmd pos delend 0 cs with
        | .into i =>
            let c := cs.getD i (.ne ⟨0, 0⟩ ⟨0, 0⟩ none false)
            let bef := cs.take i
            let aft := cs.drop (i + 1)
            match doEditF fuel c cmd with
            | .ok c2 evs =>
                .ok (.ed s (applyEvsPos e evs) n k ts
                      (bef ++ c2 :: applyEvsList aft evs)) evs
            | .err msg c2 evs =>
                .err msg (.ed s (applyEvsPos e evs) n k ts
                      (bef ++ c2 :: applyEvsList aft evs)) evs
            | .nofuel => .nofuel
        | .split marks cA cB =>
            match applyKills ts cs marks with
            | (some msg, ts2, cs2) => .err msg (.ed s e n k ts2 cs2) []
            | (none, ts2, cs2) =>
                match doEditF fuel (.ed s e n k ts2 cs2) cA with
                | .ok t1 evs1 =>
                    match doEditF fuel t1 cB with
                    | .ok t2 evs2 => .ok t2 (evs1 ++ evs2)
                    | .err msg t2 evs2 => .err msg t2 (evs1 ++ evs2)
                    | .nofuel => .nofuel
                | .err msg t1 evs1 => .err msg t1 evs1
                | .nofuel => .nofuel
        | .done marks =>
            match applyKills ts cs marks with
            | (some msg, ts2, cs2) => .err msg (.ed s e n k ts2 cs2) []
            | (none, ts2, cs2) =>
                match cmd.ctype with
                | .D =>
                    if s = e then .err "assert delete in empty" (.ed s e n k ts2 cs2) []
                    else
                      let delta : Position :=
                        if cmd.char = ['\n'] then ⟨-1, 0⟩
                        else ⟨0, -(cmd.char.length : Int)⟩
                      .ok (.ed s (e.move pos delta) n k ts2 (moveList pos delta cs2))
                        [(pos, delta)]
                | .I =>
                    let delta : Position :=
                      if cmd.char = ['\n'] then ⟨1, 0⟩
                      else ⟨0, (cmd.char.length : Int)⟩
                    .ok (.ed s (e.move pos delta) n k ts2 (moveList pos delta cs2))
                      [(pos, delta)]

/-! ### Basic order facts about positions -/

theorem Position.lt_def {p q : Position} :
    p < q ↔ (p.line < q.line ∨ (p.line = q.line ∧ p.col < q.col)) := Iff.rfl

theorem Position.le_def {p q : Position} : p ≤ q ↔ (p < q ∨ p = q) := Iff.rfl

theorem Position.not_lt_of_le {p q : Position} (h : p ≤ q) : ¬ q < p := by
  rcases p with ⟨pl, pc⟩
  rcases q with ⟨ql, qc⟩
  rcases Position.le_def.mp h with h1 | h1
  · rcases Position.lt_def.mp h1 with h2 | ⟨h2, h3⟩ <;>
      · intro hq
        rcases Position.lt_def.mp hq with g1 | ⟨g1, g2⟩ <;> (simp_all; try omega)
  · intro hq
    cases h1
    rcases Position.lt_def.mp hq with g1 | ⟨g1, g2⟩ <;> simp_all

/-! ### How `_move` acts on the boundaries of a subtree -/

theorem TextObject.move_start (pivot d : Position) (t : TextObject) :
    (TextObject.move pivot d t).start = t.start.move pivot d := by
  cases t <;> rfl

theorem TextObject.move_stop (pivot d : Position) (t : TextObject) :
    (TextObject.move pivot d t).stop = t.stop.move pivot d := by
  cases t <;> rfl

mutual
theorem TextObject.boundaries_move (pivot d : Position) (t : TextObject) :
    (TextObject.move pivot d t).boundaries =
      t.boundaries.map (fun p => p.move pivot d) := by
  cases t with
  | ed s e n k ts cs =>
      simp only [TextObject.move, TextObject.boundaries, List.map_cons]
      rw [boundariesList_move pivot d cs]
  | ne s e n k =>
      simp [TextObject.move, TextObject.boundaries]

theorem boundariesList_move (pivot d : Position) (cs : List TextObject) :
    boundariesList (moveList pivot d cs) =
      (boundariesList cs).map (fun p => p.move pivot d) := by
  cases cs with
  | nil => simp [moveList, boundariesList]
  | cons c cs =>
      simp only [moveList, boundariesList, List.map_append]
      rw [TextObject.boundaries_move pivot d c, boundariesList_move pivot d cs]
end

/-! ### The shape of an upward boundary-propagation step -/

/-- A later sibling shifted by one upward-propagation step: the whole
subtree is `_move`d once, so in particular its own start and end are
shifted by one `Position.move(pivot, diff)` application each. -/
def sibShifted (pivot d : Position) (a b : TextObject) : Prop :=
  b = TextObject.move pivot d a ∧
    b.start = a.start.move pivot d ∧ b.stop = a.stop.move pivot d

/-- An ancestor frame shifted by one upward-propagation step: its own end
is moved exactly once, its start, identity fields and earlier siblings
are untouched, and every later sibling is `_move`d exactly once. -/
def frameShifted (pivot d : Position) (f g : Frame) : Prop :=
  g.start = f.start ∧ g.stop = f.stop.move pivot d ∧ g.no = f.no ∧
    g.killed = f.killed ∧ g.tabstops = f.tabstops ∧ g.before = f.before ∧
    List.Forall₂ (sibShifted pivot d) f.after g.after

theorem sibShifted_move (pivot d : Position) (a : TextObject) :
    sibShifted pivot d a (TextObject.move pivot d a) :=
  ⟨rfl, TextObject.move_start pivot d a, TextObject.move_stop pivot d a⟩

theorem forall₂_sibShifted_moveList (pivot d : Position) (l : List TextObject) :
    List.Forall₂ (sibShifted pivot d) l (moveList pivot d l) := by
  induction l with
  | nil => exact List.Forall₂.nil
  | cons c cs ih => exact List.Forall₂.cons (sibShifted_move pivot d c) ih

theorem forall₂_frameShifted_childHasMovedUp (pivot d : Position) (path : Path) :
    List.Forall₂ (frameShifted pivot d) path (childHasMovedUp pivot d path) := by
  induction path with
  | nil => exact List.Forall₂.nil
  | cons f fs ih =>
      refine List.Forall₂.cons ?_ ih
      exact ⟨rfl, rfl, rfl, rfl, rfl, rfl, forall₂_sibShifted_moveList pivot d f.after⟩

theorem forall₂_frameShifted_childEndMoved3 (pivot d : Position) (path : Path) :
    List.Forall₂ (frameShifted pivot d) path (childEndMoved3 pivot d path) := by
  induction path with
  | nil => exact List.Forall₂.nil
  | cons f fs ih =>
      refine List.Forall₂.cons ?_ ih
      exact ⟨rfl, rfl, rfl, rfl, rfl, rfl, forall₂_sibShifted_moveList pivot d f.after⟩

theorem TextObject.setStop_start (p : Position) (t : TextObject) :
    (t.setStop p).start = t.start := by cases t <;> rfl

theorem TextObject.setStop_stop (p : Position) (t : TextObject) :
    (t.setStop p).stop = p := by cases t <;> rfl

theorem TextObject.setStop_childs (p : Position) (t : TextObject) :
    (t.setStop p).childs = t.childs := by cases t <;> rfl

/-- C1.  After `overwrite` on a text object with a parent, the object's
own end is exactly the position returned by the host document adapter,
its start and its children are untouched, and — with
`pivot = min(old_end, new_end)` and `diff = new_end - old_end` — every
ancestor's end has `Position.move(pivot, diff)` applied to it exactly
once, and the start and the end of every later sibling at every ancestor
level likewise have `Position.move(pivot, diff)` applied exactly once
(their whole subtrees are `_move`d once); ancestor starts, identity
fields and earlier siblings are untouched, so no boundary is shifted
twice or in the wrong direction. -/
theorem c1_overwrite_propagation (f : Frame) (fs : Path) (t : TextObject)
    (newEnd : Position) :
    ((overwrite (f :: fs) t newEnd).2).stop = newEnd ∧
    ((overwrite (f :: fs) t newEnd).2).start = t.start ∧
    ((overwrite (f :: fs) t newEnd).2).childs = t.childs ∧
    List.Forall₂ (frameShifted (Position.minP t.stop newEnd) (newEnd.diff t.stop))
      (f :: fs) (overwrite (f :: fs) t newEnd).1 := by
  refine ⟨TextObject.setStop_stop newEnd t, TextObject.setStop_start newEnd t,
    TextObject.setStop_childs newEnd t, ?_⟩
  exact forall₂_frameShifted_childHasMovedUp _ _ (f :: fs)

/-- C5.  `child_end_moved3(pivot, diff)` on an object with no parent does
nothing (the relay terminates at the root), and on an object with a
parent it moves the parent's end by `Position.move(pivot, diff)`, moves
the start and end of every sibling that comes after this object in the
parent's child order (as whole subtrees, each exactly once), leaves
starts, earlier siblings and identity fields alone, and recurses on the
parent, doing the same at every ancestor level. -/
theorem c5_child_end_moved3 (pivot d : Position) (path : Path) :
    childEndMoved3 pivot d [] = [] ∧
    List.Forall₂ (frameShifted pivot d) path (childEndMoved3 pivot d path) :=
  ⟨rfl, forall₂_frameShifted_childEndMoved3 pivot d path⟩

/-- C10, counterexample.  `_move` with pivot `(0,0)` and column diff
`(0,1)` on an object ending at `(1,0)`: the end is at-or-after the pivot,
yet it does not move by the diff — it is on a later line than the pivot,
so `Position.move` leaves it unchanged. -/
theorem c10_counterexample :
    (⟨0, 0⟩ : Position) ≤ ⟨1, 0⟩ ∧
    (TextObject.move ⟨0, 0⟩ ⟨0, 1⟩ (.ne ⟨0, 0⟩ ⟨1, 0⟩ none false)).stop = ⟨1, 0⟩ ∧
    decide ((⟨1, 0⟩ : Position) = Position.add ⟨1, 0⟩ ⟨0, 1⟩) = false :=
  ⟨Or.inl (Or.inl (by decide)), rfl, rfl⟩

/-- C10, amended.  `_move(pivot, diff)` applies `Position.move` exactly
once to the object's own start and end and to every descendant boundary
(the boundary list of the moved subtree is the pointwise image of the
original); under `Position.move`, a boundary strictly before the pivot is
unchanged, a boundary at or after the pivot on the pivot's line moves by
`diff` when `diff` is column-only, a boundary on a different line is
unchanged by a column-only `diff`, and a line-changing `diff` shifts the
line component. -/
theorem c10_amended (pivot d : Position) (t : TextObject) :
    (TextObject.move pivot d t).boundaries =
      t.boundaries.map (fun p => p.move pivot d) ∧
    ∀ p : Position,
      (p < pivot → p.move pivot d = p) ∧
      (¬ p < pivot → d.line = 0 → p.line = pivot.line → p.move pivot d = p.add d) ∧
      (¬ p < pivot → d.line = 0 → p.line ≠ pivot.line → p.move pivot d = p) ∧
      (¬ p < pivot → d.line ≠ 0 → (p.move pivot d).line = p.line + d.line) := by
  refine ⟨TextObject.boundaries_move pivot d t, fun p => ⟨?_, ?_, ?_, ?_⟩⟩
  · intro h
    simp [Position.move, h]
  · intro h h0 hl
    simp only [Position.move, if_neg h, if_pos h0, if_pos hl, Position.add]
    cases p
    cases d
    simp_all
  · intro h h0 hl
    simp [Position.move, h, h0, hl]
  · intro h h0
    simp [Position.move, h, h0]

/-- Witness for `c10_amended` at pivot `(0,3)`, diff `(0,2)`, a concrete
object and the boundary `(0,5)`. -/
theorem c10_amended_witness :
    (TextObject.move ⟨0, 3⟩ ⟨0, 2⟩ (.ne ⟨0, 1⟩ ⟨0, 5⟩ none false)).boundaries =
      ((TextObject.ne ⟨0, 1⟩ ⟨0, 5⟩ none false).boundaries).map
        (fun p => p.move ⟨0, 3⟩ ⟨0, 2⟩) ∧
    Position.move ⟨0, 5⟩ ⟨0, 3⟩ ⟨0, 2⟩ = Position.add ⟨0, 5⟩ ⟨0, 2⟩ :=
  ⟨(c10_amended ⟨0, 3⟩ ⟨0, 2⟩ (.ne ⟨0, 1⟩ ⟨0, 5⟩ none false)).1,
   ((c10_amended ⟨0, 3⟩ ⟨0, 2⟩ (.ne ⟨0, 1⟩ ⟨0, 5⟩ none false)).2 ⟨0, 5⟩).2.1
     (by decide) (by decide) (by decide)⟩

/-! ### The order invariant on a child list -/

/-- The order invariant of the spec: the `_childs` list is sorted by
start position. -/
def startsSorted : List TextObject → Bool
  | [] => true
  | [_] => true
  | a :: b :: rest => (decide (a.start ≤ b.start)) && startsSorted (b :: rest)

/-! ### Concrete region trees used by the scenario claims -/

/-- Scenario B fixture: root `(0,0)-(0,10)` with tabstop key 1 registered
and one editable tabstop child `(0,2)-(0,5)` carrying `no = 1`. -/
def c2root : TextObject :=
  .ed ⟨0, 0⟩ ⟨0, 10⟩ none false [1] [.ed ⟨0, 2⟩ ⟨0, 5⟩ (some 1) false [] []]

/-- Scenario B command: delete the three characters `"abc"` at `(0,2)`. -/
def c2cmd : Cmd := ⟨.D, 0, 2, ['a', 'b', 'c']⟩

/-- The actual result of scenario B on the code. -/
def c2res : TextObject :=
  .ed ⟨0, 0⟩ ⟨0, 7⟩ none false [1] [.ed ⟨0, 2⟩ ⟨0, 2⟩ (some 1) false [] []]

/-- C2, counterexample.  Deleting exactly the child's text at `(0,2)`
satisfies the "edit completely for the child" case (`start <= pos < end`
and `start < delend <= end`), so the command is dispatched into the
child, not treated as a removal: the run succeeds, and in the result the
root's end is `(0,7)` (not `(0,8)`), the child is still in the children
sequence, and tabstop 1 is still registered — each conjunct refuting one
of the claim's assertions. -/
theorem c2_counterexample :
    doEditF 4 c2root c2cmd = .ok c2res [(⟨0, 2⟩, ⟨0, -3⟩)] ∧
    decide (c2res.stop = ⟨0, 8⟩) = false ∧
    decide (c2res.childs.length = 0) = false ∧
    decide (c2res.tabstops = []) = false :=
  ⟨rfl, rfl, rfl, rfl⟩

/-- C2, amended.  On the scenario-B tree, the delete is routed into the
child (whose span contains the whole deleted range): the child is not
destroyed but shrinks to the empty span `(0,2)-(0,2)` and stays in the
root's children with its tabstop number still registered, and the root's
end becomes `(0,7)`. -/
theorem c2_amended_run :
    doEditF 4 c2root c2cmd = .ok c2res [(⟨0, 2⟩, ⟨0, -3⟩)] ∧
    c2res.stop = ⟨0, 7⟩ ∧ c2res.childs.length = 1 ∧
    c2res.tabstops = [1] ∧ (c2res.childs.headD c2root).start = ⟨0, 2⟩ ∧
    (c2res.childs.headD c2root).stop = ⟨0, 2⟩ ∧
    (c2res.childs.headD c2root).no = some 1 :=
  ⟨rfl, rfl, rfl, rfl, rfl, rfl, rfl⟩

/-- C3 fixture: a two-line root `(0,0)-(2,0)` with two editable children,
`(0,3)-(0,4)` on the first line and `(1,1)-(1,3)` on the second; the
children list is sorted by start. -/
def c3root : TextObject :=
  .ed ⟨0, 0⟩ ⟨2, 0⟩ none false []
    [.ed ⟨0, 3⟩ ⟨0, 4⟩ none false [] [], .ed ⟨1, 1⟩ ⟨1, 3⟩ none false [] []]

/-- The result of deleting the newline at `(0,5)` on `c3root`. -/
def c3res : TextObject :=
  .ed ⟨0, 0⟩ ⟨1, 0⟩ none false []
    [.ed ⟨0, 3⟩ ⟨0, 4⟩ none false [] [], .ed ⟨0, 1⟩ ⟨0, 3⟩ none false [] []]

/-- C3, failing run.  Deleting the line break at `(0,5)` (payload `"\n"`)
is absorbed by the root with delta `(-1,0)`; the second child's
boundaries come down to line 0 but keep their old columns, landing at
`(0,1)-(0,3)` — before its earlier sibling `(0,3)-(0,4)`.  The operation
completes normally, yet the children list of the result is no longer
sorted by start: `dispatch_edit` does not preserve the order invariant. -/
theorem c3_failing_run :
    doEditF 4 c3root ⟨.D, 0, 5, ['\n']⟩ = .ok c3res [(⟨0, 5⟩, ⟨-1, 0⟩)] ∧
    startsSorted c3root.childs = true ∧
    startsSorted c3res.childs = false :=
  ⟨rfl, rfl, rfl⟩

/-- C4 fixture: root `(0,0)-(0,10)` with one noneditable child
`(0,2)-(0,5)`. -/
def c4t0 : TextObject :=
  .ed ⟨0, 0⟩ ⟨0, 10⟩ none false [] [.ne ⟨0, 2⟩ ⟨0, 5⟩ none false]

/-- State of `c4t0` after inserting `"x"` at `(0,3)`: the insert skips
the noneditable child and is absorbed by the root, whose shift moves the
child's end from `(0,5)` to `(0,6)` — the noneditable region has grown. -/
def c4t1 : TextObject :=
  .ed ⟨0, 0⟩ ⟨0, 11⟩ none false [] [.ne ⟨0, 2⟩ ⟨0, 6⟩ none false]

/-- C4, failing run.  Insert `"x"` at `(0,3)` and then delete the same
`"x"` at `(0,3)`: after the insert the noneditable child has grown to
`(0,2)-(0,6)`, so the delete now lies strictly inside it and kills it.
The round trip does not restore the child's span — the child no longer
exists at all (the root had one child before, none after). -/
theorem c4_failing_run :
    doEditF 4 c4t0 ⟨.I, 0, 3, ['x']⟩ = .ok c4t1 [(⟨0, 3⟩, ⟨0, 1⟩)] ∧
    doEditF 4 c4t1 ⟨.D, 0, 3, ['x']⟩ =
      .ok (.ed ⟨0, 0⟩ ⟨0, 10⟩ none false [] []) [(⟨0, 3⟩, ⟨0, -1⟩)] ∧
    c4t0.childs.length = 1 :=
  ⟨rfl, rfl, rfl⟩

/-- C6 fixture: an editable object with direct tabstops `{2}` and one
noneditable child. -/
def c6obj : TextObject :=
  .ed ⟨0, 0⟩ ⟨0, 9⟩ none false [2] [.ne ⟨0, 1⟩ ⟨0, 2⟩ none false]

/-- C6 fixture for the silent-miss divergence: no direct tabstops, one
editable child carrying direct tabstop `{2}`. -/
def c6miss : TextObject :=
  .ed ⟨0, 0⟩ ⟨0, 9⟩ none false [] [.ed ⟨0, 1⟩ ⟨0, 2⟩ (some 2) false [2] []]

/-- C6, failing run.  `_get_prev_tab(5)` on `c6obj` recurses over all of
`self._childs`; the noneditable child has no `_get_prev_tab` method, so
the lookup raises `AttributeError` instead of returning tabstop 2.
Moreover on `c6miss` (no direct tabstops) the method returns absence
immediately even though tabstop 2 is registered in a child, so the
"highest tabstop below `n` across all children" reading fails there
too. -/
theorem c6_failing_run :
    getPrevTab c6obj 5 = .error "AttributeError" ∧
    getPrevTab c6miss 5 = .ok none ∧
    (c6miss.childs.headD c6obj).tabstops = [2] :=
  ⟨rfl, rfl, rfl⟩

/-- C7 fixture: an empty root `(0,0)-(0,0)` with one empty editable
child at the same position. -/
def c7root : TextObject :=
  .ed ⟨0, 0⟩ ⟨0, 0⟩ none false [] [.ed ⟨0, 0⟩ ⟨0, 0⟩ none false [] []]

/-- C7, counterexample.  Deleting `"x"` at `(0,0)` in the empty root: the
scan first marks the (empty, fully covered) child for removal and deletes
it, and only then does the absorb step hit the `start != end` assertion.
The command is rejected, but the rejection state has already lost the
child — the tree is not left in its pre-command state. -/
theorem c7_counterexample :
    doEditF 4 c7root ⟨.D, 0, 0, ['x']⟩ =
      .err "assert delete in empty" (.ed ⟨0, 0⟩ ⟨0, 0⟩ none false [] []) [] ∧
    c7root.childs.length = 1 :=
  ⟨rfl, rfl⟩

/-- C8 fixture: a root with no direct tabstops whose editable child
carries direct tabstop `{3}`. -/
def c8root : TextObject :=
  .ed ⟨0, 0⟩ ⟨0, 9⟩ none false [] [.ed ⟨0, 1⟩ ⟨0, 4⟩ (some 3) false [3] []]

/-- C8, counterexample.  `next_tab(1)` on `c8root` returns absence
because the object itself has no direct tabstops — the early return skips
the children — while the claimed lookup (minimum over direct tabstops and
recursive results from editable children) finds tabstop 3. -/
theorem c8_counterexample :
    getNextTab c8root 1 = none ∧ nextTabSpec c8root 1 = some 3 :=
  ⟨rfl, rfl⟩

/-- C9 fixture: a parent with no registered tabstop keys whose only child
carries tabstop number 5. -/
def c9p : TextObject :=
  .ed ⟨0, 0⟩ ⟨0, 5⟩ none false [] [.ed ⟨0, 1⟩ ⟨0, 2⟩ (some 5) false [] []]

/-- C9, counterexample.  `_del_child` on a child whose `no` (here 5) is
not a registered key of the parent raises `KeyError` — the
`try/except` only catches `AttributeError` — so removal does not complete
without error; the error state shows the child was already marked and
removed before the raise. -/
theorem c9_counterexample :
    delChild c9p 0 = .error (.ed ⟨0, 0⟩ ⟨0, 5⟩ none false [] []) := rfl

theorem TextObject.setKilled_killed (t : TextObject) :
    (t.setKilled true).killed = true := by cases t <;> rfl

/-- C9, amended.  `remove_child` on the child at index `i` marks it
killed, removes it from the children sequence and, when it carries a
registered tabstop number, unregisters that number; it completes without
error whenever the child carries no tabstop number or carries one that is
registered on the parent — but not in general: a carried, unregistered
number raises `KeyError` (see the counterexample). -/
theorem c9_amended (s e : Position) (n : Option Int) (k : Bool) (ts : List Int)
    (cs : List TextObject) (i : Nat) (c : TextObject)
    (hc : cs[i]? = some c)
    (hreg : c.no = none ∨ ∃ m, c.no = some m ∧ m ∈ ts) :
    ∃ ts2, delChild (.ed s e n k ts cs) i =
        .ok (.ed s e n k ts2 (cs.take i ++ cs.drop (i + 1)), c.setKilled true) ∧
      (c.setKilled true).killed = true ∧
      ((c.no = none ∧ ts2 = ts) ∨ ∃ m, c.no = some m ∧ ts2 = ts.erase m) := by
  rcases hreg with h | ⟨m, hm, hmem⟩
  · exact ⟨ts, by simp [delChild, hc, h], TextObject.setKilled_killed c,
      Or.inl ⟨h, rfl⟩⟩
  · exact ⟨ts.erase m, by simp [delChild, hc, hm, hmem],
      TextObject.setKilled_killed c, Or.inr ⟨m, hm, rfl⟩⟩

/-- Witness for `c9_amended`: removing a child that carries the
registered tabstop number 7. -/
theorem c9_amended_witness :
    ∃ ts2, delChild (.ed ⟨0, 0⟩ ⟨0, 6⟩ none false [7]
        [.ed ⟨0, 1⟩ ⟨0, 3⟩ (some 7) false [] []]) 0 =
        .ok (.ed ⟨0, 0⟩ ⟨0, 6⟩ none false ts2
          (([.ed ⟨0, 1⟩ ⟨0, 3⟩ (some 7) false [] []].take 0) ++
            ([(.ed ⟨0, 1⟩ ⟨0, 3⟩ (some 7) false [] [] : TextObject)].drop 1)),
          (TextObject.ed ⟨0, 1⟩ ⟨0, 3⟩ (some 7) false [] []).setKilled true) ∧
      ((TextObject.ed ⟨0, 1⟩ ⟨0, 3⟩ (some 7) false [] []).setKilled true).killed = true ∧
      (((TextObject.ed ⟨0, 1⟩ ⟨0, 3⟩ (some 7) false [] []).no = none ∧ ts2 = [7]) ∨
        ∃ m, (TextObject.ed ⟨0, 1⟩ ⟨0, 3⟩ (some 7) false [] []).no = some m ∧
          ts2 = [7].erase m) :=
  c9_amended ⟨0, 0⟩ ⟨0, 6⟩ none false [7]
    [.ed ⟨0, 1⟩ ⟨0, 3⟩ (some 7) false [] []] 0
    (.ed ⟨0, 1⟩ ⟨0, 3⟩ (some 7) false [] []) rfl
    (Or.inr ⟨7, rfl, by decide⟩)

/-! ### Rejection of deletes in empty objects (C7) -/

/-- In a child list whose members all have `start = end`, the scan of a
delete command can neither recurse into a child nor split: every child
is either marked killed or skipped, so the loop runs to completion. -/
theorem scanGo_all_empty (line col : Int) (ch : List Char) (pos delend : Position) :
    ∀ (cs : List TextObject) (i : Nat), (∀ c ∈ cs, c.start = c.stop) →
      ∃ marks, scanGo ⟨.D, line, col, ch⟩ pos delend i cs = .done marks := by
  intro cs
  induction cs with
  | nil => exact fun i _ => ⟨[], rfl⟩
  | cons c cs ih =>
      intro i h
      have hc : c.start = c.stop := h c (List.mem_cons_self c cs)
      obtain ⟨marks, hm⟩ := ih (i + 1) (fun x hx => h x (List.mem_cons_of_mem c hx))
      simp only [scanGo]
      have h2 : ¬ (c.start ≤ pos ∧ pos < c.stop ∧ c.start < delend ∧ delend ≤ c.stop) := by
        rintro ⟨g1, g2, -, -⟩
        exact Position.not_lt_of_le g1 (hc ▸ g2)
      have h3 : ¬ (pos < c.start ∧ c.start < delend ∧ delend ≤ c.stop) := by
        rintro ⟨-, g2, g3⟩
        exact Position.not_lt_of_le (hc ▸ g3) g2
      have h4 : ¬ (delend ≥ c.stop ∧ c.start ≤ pos ∧ pos < c.stop) := by
        rintro ⟨-, g2, g3⟩
        exact Position.not_lt_of_le g2 (hc ▸ g3)
      rw [if_neg h2]
      by_cases hk : (pos < c.start ∧ c.stop ≤ delend) ∨ (pos ≤ c.start ∧ c.stop < delend)
      · rw [if_pos hk, hm]
        exact ⟨true :: marks, rfl⟩
      · rw [if_neg hk, if_neg h3, if_neg h4, hm]
        exact ⟨false :: marks, rfl⟩

/-- `applyKills` only removes children and only unregisters tabstop keys:
in every outcome (including a `KeyError`) the resulting key list and
child list are sublists of the originals. -/
theorem applyKills_sublists :
    ∀ (cs : List TextObject) (ts : List Int) (marks : List Bool),
      (applyKills ts cs marks).2.1.Sublist ts ∧
      (applyKills ts cs marks).2.2.Sublist cs := by
  intro cs
  induction cs with
  | nil => exact fun ts marks => ⟨List.Sublist.refl ts, List.Sublist.refl []⟩
  | cons c cs ih =>
      intro ts marks
      simp only [applyKills]
      by_cases hm : marks.headD false
      · rw [if_pos hm]
        cases hno : c.no with
        | none =>
            obtain ⟨hts, hcs⟩ := ih ts marks.tail
            exact ⟨hts, hcs.cons c⟩
        | some num =>
            by_cases hmem : num ∈ ts
            · dsimp only
              rw [if_pos hmem]
              obtain ⟨hts, hcs⟩ := ih (ts.erase num) marks.tail
              exact ⟨hts.trans (List.erase_sublist num ts), hcs.cons c⟩
            · dsimp only
              rw [if_neg hmem]
              exact ⟨List.Sublist.refl ts, (List.Sublist.refl cs).cons c⟩
      · rw [if_neg hm]
        rcases happ : applyKills ts cs marks.tail with ⟨er, ts2, cs2⟩
        obtain ⟨hts, hcs⟩ := ih ts marks.tail
        rw [happ] at hts hcs
        exact ⟨hts, hcs.cons₂ c⟩

/-- C7, amended.  A delete that reaches the direct-absorb step of an
object whose span is empty — all of whose children are themselves empty,
as containment requires — is rejected by an exception (the
`start != end` assertion, or a `KeyError` while removing a consumed
child), and no boundary has been shifted: the object's start and end are
unchanged, no upward shift was emitted, and the surviving children and
tabstop keys are (unchanged) sublists of the originals.  However, the
tree need not be in its pre-command state: children wholly consumed by
the deletion have already been removed before the rejection (see the
counterexample). -/
theorem c7_amended (fuel : Nat) (s : Position) (n : Option Int) (k : Bool)
    (ts : List Int) (cs : List TextObject) (line col : Int) (ch : List Char)
    (hcs : ∀ c ∈ cs, c.start = c.stop) :
    ∃ msg ts2 cs2,
      doEditF (fuel + 1) (.ed s s n k ts cs) ⟨.D, line, col, ch⟩ =
        .err msg (.ed s s n k ts2 cs2) [] ∧
      ts2.Sublist ts ∧ cs2.Sublist cs := by
  simp only [doEditF]
  by_cases hnl : ¬ (('\n' ∉ ch) ∨ ch = ['\n'])
  · rw [if_pos hnl]
    exact ⟨"assert mixed newline", ts, cs, rfl, List.Sublist.refl ts,
      List.Sublist.refl cs⟩
  · rw [if_neg hnl]
    obtain ⟨marks, hscan⟩ :=
      scanGo_all_empty line col ch ⟨line, col⟩
        (if ch = ['\n'] then ⟨line + 1, 0⟩ else ⟨line, col + (ch.length : Int)⟩)
        cs 0 hcs
    rw [hscan]
    dsimp only
    rcases happ : applyKills ts cs marks with ⟨er, ts2, cs2⟩
    obtain ⟨hts, hcs2⟩ := applyKills_sublists cs ts marks
    rw [happ] at hts hcs2
    cases er with
    | some msg => exact ⟨msg, ts2, cs2, rfl, hts, hcs2⟩
    | none =>
        refine ⟨"assert delete in empty", ts2, cs2, ?_, hts, hcs2⟩
        simp

/-- Witness for `c7_amended`: an empty object at `(0,4)` with two empty
children and tabstop key 9, receiving a two-character delete at `(0,4)`. -/
theorem c7_amended_witness :
    (∀ c ∈ [TextObject.ed ⟨0, 4⟩ ⟨0, 4⟩ (some 9) false [] [],
        TextObject.ne ⟨0, 4⟩ ⟨0, 4⟩ none false], c.start = c.stop) ∧
    ∃ msg ts2 cs2,
      doEditF 3 (.ed ⟨0, 4⟩ ⟨0, 4⟩ none false [9]
          [.ed ⟨0, 4⟩ ⟨0, 4⟩ (some 9) false [] [],
            .ne ⟨0, 4⟩ ⟨0, 4⟩ none false]) ⟨.D, 0, 4, ['a', 'b']⟩ =
        .err msg (.ed ⟨0, 4⟩ ⟨0, 4⟩ none false ts2 cs2) [] ∧
      ts2.Sublist [9] ∧
      cs2.Sublist [.ed ⟨0, 4⟩ ⟨0, 4⟩ (some 9) false [] [],
        .ne ⟨0, 4⟩ ⟨0, 4⟩ none false] :=
  ⟨by decide,
   c7_amended 2 ⟨0, 4⟩ none false [9]
     [.ed ⟨0, 4⟩ ⟨0, 4⟩ (some 9) false [] [], .ne ⟨0, 4⟩ ⟨0, 4⟩ none false]
     0 4 ['a', 'b'] (by decide)⟩

/-! ### The tabstop scan loop versus the minimum of a candidate set (C8) -/

/-- Combine the minima of two candidate lists. -/
def ominMin : Option Int → Option Int → Option Int
  | none, o => o
  | some x, none => some x
  | some x, some y => some (min x y)

theorem minI_optList (o : Option Int) : minI (optList o) = o := by
  cases o <;> rfl

theorem minI_append (a b : List Int) :
    minI (a ++ b) = ominMin (minI a) (minI b) := by
  induction a with
  | nil => cases hb : minI b <;> simp [minI, ominMin, hb]
  | cons x xs ih =>
      show (match minI (xs ++ b) with
        | none => some x
        | some m => some (min x m)) = ominMin (minI (x :: xs)) (minI b)
      rw [ih]
      cases hxs : minI xs <;> cases hb : minI b <;>
        simp [minI, ominMin, hxs, hb, min_assoc]

theorem minI_mem : ∀ {l : List Int} {m : Int}, minI l = some m → m ∈ l := by
  intro l
  induction l with
  | nil => intro m h; simp [minI] at h
  | cons x xs ih =>
      intro m h
      simp only [minI] at h
      cases hxs : minI xs with
      | none =>
          rw [hxs] at h
          injection h with h
          exact h ▸ List.mem_cons_self x xs
      | some mm =>
          rw [hxs] at h
          injection h with h
          rcases le_total x mm with hle | hle
          · rw [min_eq_left hle] at h
            exact h ▸ List.mem_cons_self x xs
          · rw [min_eq_right hle] at h
            exact List.mem_cons_of_mem x (h ▸ ih hxs)

theorem minI_eq_of_mem_le :
    ∀ {l : List Int} {a : Int}, a ∈ l → (∀ x ∈ l, a ≤ x) → minI l = some a := by
  intro l
  induction l with
  | nil => intro a h; simp at h
  | cons x xs ih =>
      intro a hmem hle
      simp only [minI]
      rcases List.mem_cons.mp hmem with rfl | hmem2
      · cases hxs : minI xs with
        | none => rfl
        | some m =>
            have hm : a ≤ m := hle m (List.mem_cons_of_mem a (minI_mem hxs))
            dsimp only
            rw [min_eq_left hm]
      · have hmx : minI xs = some a :=
          ih hmem2 (fun y hy => hle y (List.mem_cons_of_mem x hy))
        rw [hmx]
        dsimp only
        rw [min_eq_right (hle x (List.mem_cons_self x xs))]

theorem maxI_eq_none : ∀ {l : List Int}, maxI l = none ↔ l = [] := by
  intro l
  cases l with
  | nil => simp [maxI]
  | cons x xs =>
      simp only [maxI]
      cases maxI xs <;> simp

theorem maxI_bound : ∀ (l : List Int) (x : Int), x ∈ l → x ≤ (maxI l).getD 0 := by
  intro l
  induction l with
  | nil => simp
  | cons a as ih =>
      intro x hx
      simp only [maxI]
      cases has : maxI as with
      | none =>
          have : as = [] := maxI_eq_none.mp has
          subst this
          rcases List.mem_cons.mp hx with rfl | h
          · simp
          · simp at h
      | some m =>
          simp only [Option.getD_some]
          rcases List.mem_cons.mp hx with rfl | h
          · exact le_max_left x m
          · have := ih x h
            rw [has, Option.getD_some] at this
            exact this.trans (le_max_right a m)

/-- The upward while loop of `_get_next_tab` computes exactly the least
element of `tabstops` that is at least the scan's starting point,
provided every key is bounded by `tmax` and the step budget covers the
distance to `tmax`. -/
theorem scanUp_eq_minI (ts : List Int) (tmax : Int)
    (hmax : ∀ x ∈ ts, x ≤ tmax) :
    ∀ (steps : Nat) (i : Int), (tmax - i).toNat < steps →
      scanUp ts tmax steps i = minI (ts.filter (fun x => i ≤ x)) := by
  intro steps
  induction steps with
  | zero => intro i h; exact absurd h (Nat.not_lt_zero _)
  | succ steps ih =>
      intro i hsteps
      simp only [scanUp]
      by_cases hle : i ≤ tmax
      · rw [if_pos hle]
        by_cases hmem : i ∈ ts
        · rw [if_pos hmem]
          have h1 : i ∈ ts.filter (fun x => i ≤ x) :=
            List.mem_filter.mpr ⟨hmem, by simp⟩
          have h2 : ∀ x ∈ ts.filter (fun x => i ≤ x), i ≤ x := by
            intro x hx
            have := (List.mem_filter.mp hx).2
            exact of_decide_eq_true this
          exact (minI_eq_of_mem_le h1 h2).symm
        · rw [if_neg hmem]
          have hfil : ts.filter (fun x => i ≤ x) = ts.filter (fun x => i + 1 ≤ x) := by
            apply List.filter_congr
            intro x hx
            have hne : x ≠ i := fun e => hmem (e ▸ hx)
            simp only [decide_eq_decide]
            omega
          rw [hfil]
          by_cases htop : tmax < i + 1
          · have hfil2 : ts.filter (fun x => i + 1 ≤ x) = [] := by
              apply List.filter_eq_nil_iff.mpr
              intro x hx
              have := hmax x hx
              simp only [decide_eq_true_eq]
              omega
            rw [hfil2]
            cases steps with
            | zero => rfl
            | succ st =>
                simp only [scanUp]
                rw [if_neg (by omega)]
                rfl
          · exact ih (i + 1) (by omega)
      · rw [if_neg hle]
        have hfil : ts.filter (fun x => i ≤ x) = [] := by
          apply List.filter_eq_nil_iff.mpr
          intro x hx
          have := hmax x hx
          simp only [decide_eq_true_eq]
          omega
        rw [hfil]
        rfl

/-- The direct-tabstop part of `_get_next_tab` — the upward scan with the
step budget the model gives it — is the minimum of the direct keys
strictly greater than `no`. -/
theorem direct_scan_eq (ts : List Int) (no : Int) :
    scanUp ts ((maxI ts).getD 0) (((maxI ts).getD 0 - no).toNat + 1) (no + 1) =
      minI (ts.filter (fun i => no < i)) := by
  rw [scanUp_eq_minI ts ((maxI ts).getD 0) (maxI_bound ts)
    (((maxI ts).getD 0 - no).toNat + 1) (no + 1) (by omega)]
  refine congrArg minI (List.filter_congr ?_)
  intro x _
  simp only [decide_eq_decide]
  omega

mutual
/-- `_get_next_tab` agrees with its amended description on every tree. -/
theorem getNextTab_eq_amendedAux : ∀ (t : TextObject) (no : Int),
    getNextTab t no = nextTabAmended t no
  | .ne _ _ _ _, _ => rfl
  | .ed s e n k ts cs, no => by
      simp only [getNextTab, nextTabAmended]
      by_cases hts : ts = []
      · rw [if_pos hts, if_pos hts]
      · rw [if_neg hts, if_neg hts]
        rw [getNextTabKids_eq_amendedAux cs no]
        rw [minI_append, minI_append, minI_optList, direct_scan_eq ts no]

/-- The child candidate lists of `_get_next_tab` and of its amended
description agree. -/
theorem getNextTabKids_eq_amendedAux : ∀ (cs : List TextObject) (no : Int),
    getNextTabKids cs no = nextTabAmendedKids cs no
  | [], _ => rfl
  | .ed s e n k ts2 cs2 :: cs, no => by
      simp only [getNextTabKids, nextTabAmendedKids]
      rw [getNextTab_eq_amendedAux (.ed s e n k ts2 cs2) no,
        getNextTabKids_eq_amendedAux cs no]
  | .ne s e n k :: cs, no => by
      simp only [getNextTabKids, nextTabAmendedKids]
      exact getNextTabKids_eq_amendedAux cs no
end

/-- C8, amended.  `_get_next_tab(no)` behaves exactly like the claimed
lookup amended with the early return: on an object with no direct
tabstops it returns absence immediately, without consulting children;
otherwise it returns the minimum, by tabstop number, of the direct
tabstops strictly greater than `no` and of the recursive results of the
editable children, with absence when no candidate exists. -/
theorem c8_amended (t : TextObject) (no : Int) :
    getNextTab t no = nextTabAmended t no :=
  getNextTab_eq_amendedAux t no

end UltiSnips
